import Mathlib

/-!
# Sticky-Notes application: shallow embedding and verification

This file embeds the core logic of the Sticky-Notes application
(two drift variants: a local-storage client in `script.js` and a
server-backed client in `public/script.js` with the Express API in
`server.js`) and proves or refutes the specification claims about it.

Conventions of the embedding:
* JS timestamps (`new Date(x).getTime()`) are modelled as `Int`
  (milliseconds); calendar dates at local midnight are modelled as an
  `Int` day key (`new Date(s + "T00:00:00").getTime()`), so equality and
  `<` of the model coincide with `Date` equality/ordering in the source.
* JS strings are modelled as `List Char` where character-level
  operations (`toLowerCase`, `includes`) matter, and as `String` where
  they are only compared for equality.
* `Array.prototype.sort` (stable per ES2019) is modelled as a stable
  insertion sort parameterised by the source's comparator.
-/

namespace StickyNotes

/-- A note as the view layer sees it (fields of the objects handled by
`renderAllNotes` in both variants): `id`, `text`, `pinned` (boolean,
default false), `createdAt` / `created_at` (timestamp, possibly absent -
the source guards with `|| 0`), `dueDate` / `due_date` (optional date)
and `reminder_time` (optional `HH:MM`, server-backed variant only,
modelled as hours × minutes). -/
structure Note where
  id : String
  text : List Char
  pinned : Bool
  createdAt : Option Int
  dueDate : Option Int
  reminderTime : Option (Nat × Nat)
deriving DecidableEq

/-- The sort key the source uses for creation dates:
`new Date(n.createdAt || 0)`, i.e. a missing timestamp counts as 0. -/
def createdKey (n : Note) : Int := n.createdAt.getD 0

/-- JS `String.prototype.toLowerCase`, character by character. -/
def lowerChars (s : List Char) : List Char := s.map Char.toLower

/-- JS `hay.includes(needle)`: `needle` occurs contiguously in `hay`. -/
def jsIncludes (needle : List Char) : List Char → Bool
  | [] => needle.isEmpty
  | c :: rest => needle.isPrefixOf (c :: rest) || jsIncludes needle rest

/-- The filter predicate of `renderAllNotes` (both variants):
`note.text.toLowerCase().includes(searchTerm.toLowerCase())`. -/
def matchesSearch (term : List Char) (n : Note) : Bool :=
  jsIncludes (lowerChars term) (lowerChars n.text)

/-- Insert an element into a list in front of the first element that the
comparator does not place strictly before it. -/
def insertSorted {α : Type} (cmp : α → α → Int) (x : α) : List α → List α
  | [] => [x]
  | y :: ys => if cmp x y ≤ 0 then x :: y :: ys else y :: insertSorted cmp x ys

/-- Stable sort by a JS-style comparator (negative means "a before b").
Models `Array.prototype.sort`, which ES2019 requires to be stable. -/
def stableSort {α : Type} (cmp : α → α → Int) : List α → List α
  | [] => []
  | x :: xs => insertSorted cmp x (stableSort cmp xs)

/-- The due-date part of the comparator in the server-backed
`renderAllNotes`: both dated → difference of the date values; dated
before undated; both undated → `created_at` descending. -/
def dueCmp (a b : Note) : Int :=
  match a.dueDate, b.dueDate with
  | some da, some db => da - db
  | some _, none => -1
  | none, some _ => 1
  | none, none => createdKey b - createdKey a

/-- The full comparator of the server-backed `renderAllNotes`:
pinned notes first (`a.pinned !== b.pinned` branch), then `dueCmp`. -/
def noteCmp (a b : Note) : Int :=
  if a.pinned != b.pinned then (if a.pinned then -1 else 1) else dueCmp a b

/-- The comparator used inside each partition by the local-storage
`renderAllNotes`: `new Date(b.createdAt || 0) - new Date(a.createdAt || 0)`. -/
def createdCmp (a b : Note) : Int := createdKey b - createdKey a

/-- The view projection of the server-backed variant
(`public/script.js`, `renderAllNotes`): filter by search term, then one
stable sort with `noteCmp`. -/
def project (notes : List Note) (term : List Char) : List Note :=
  stableSort noteCmp (notes.filter (matchesSearch term))

/-- The view projection of the local-storage variant (`script.js`,
`renderAllNotes`): filter by search term, split into pinned and
unpinned, sort each by creation date descending, concatenate. -/
def localProject (notes : List Note) (term : List Char) : List Note :=
  let filteredNotes := notes.filter (matchesSearch term)
  let pinnedNotes := filteredNotes.filter (fun n => n.pinned)
  let unpinnedNotes := filteredNotes.filter (fun n => !n.pinned)
  stableSort createdCmp pinnedNotes ++ stableSort createdCmp unpinnedNotes

/-- The partial-update payloads the local client passes to
`updateNoteContent` (`{ text: ... }` or `{ pinned: ... }`): only the
supplied fields are present. -/
structure NoteUpdates where
  text : Option (List Char)
  pinned : Option Bool
deriving DecidableEq

/-- Spread merge `{ ...notes[noteIndex], ...updates }`: fields present in `updates`
replace the old ones, absent fields are retained. -/
def applyUpdates (n : Note) (u : NoteUpdates) : Note :=
  { n with text := u.text.getD n.text, pinned := u.pinned.getD n.pinned }

/-- Function `updateNoteContent` of the local-storage variant: find the first
note with the given id (`findIndex`) and merge the updates into it;
if no note matches (`noteIndex === -1`) nothing changes. -/
def updateNoteContent : List Note → String → NoteUpdates → List Note
  | [], _, _ => []
  | n :: rest, nid, u =>
    if n.id == nid then applyUpdates n u :: rest
    else n :: updateNoteContent rest nid u

/-- What `deleteNote` of the local-storage variant leaves in storage:
`notes.filter(note => note.id !== id)`. -/
def localDeleteNotes (notes : List Note) (nid : String) : List Note :=
  notes.filter (fun n => n.id != nid)

/-- The observable outcome of the local `deleteNote`: the new stored
list together with the indicator message that `saveNotes` displays.
`deleteNote` unconditionally calls `saveNotes`, which always shows
the success indicator. -/
structure LocalDeleteOutcome where
  newNotes : List Note
  indicator : String
deriving DecidableEq

/-- Function `deleteNote(id)` in `script.js`: filter the list, then `saveNotes`
(which shows the indicator reading Saved!); there is no branch that
reports a missing id. -/
def localDeleteNote (notes : List Note) (nid : String) : LocalDeleteOutcome :=
  { newNotes := localDeleteNotes notes nid, indicator := "Saved!" }

/-- A row of the `notes` table behind the Express API. `text` is
declared `NOT NULL` in the schema; `pinned` has no such constraint, so
both are nullable at the SQL level and modelled as `Option`. -/
structure Row where
  id : Nat
  text : Option String
  pinned : Option Bool
  createdAt : Int
  dueDate : Option Int
  reminderTime : Option (Nat × Nat)
deriving DecidableEq

/-- Errors the API routes distinguish: a 404 when the `WHERE id` clause
matches no row, and the Postgres error (surfaced as a 500) when the
`NOT NULL` constraint on `text` is violated. -/
inductive DbError
  | notFound
  | notNullViolation
deriving DecidableEq

/-- Route `PUT /api/notes/:id` in `server.js`: destructures `{ text, pinned }`
from the body (absent fields become `undefined`, which the `pg` driver
sends as SQL `NULL`) and runs
`UPDATE notes SET text = $1, pinned = $2 WHERE id = $3 RETURNING *`.
If no row matches, the route answers 404; if a row matches and the
body carried no `text`, the `NOT NULL` constraint on `text` fires. -/
def serverUpdate (store : List Row) (rid : Nat) (newText : Option String)
    (newPinned : Option Bool) : Except DbError (List Row) :=
  if store.any (fun r => r.id == rid) then
    if newText.isNone then .error .notNullViolation
    else .ok (store.map (fun r =>
      if r.id == rid then { r with text := newText, pinned := newPinned } else r))
  else .error .notFound

/-- Route `DELETE /api/notes/:id` in `server.js`:
`DELETE FROM notes WHERE id = $1 RETURNING *`; empty `RETURNING` set
means 404, otherwise the rows are gone and the route answers 204. -/
def serverDelete (store : List Row) (rid : Nat) : Except DbError (List Row) :=
  if store.any (fun r => r.id == rid) then
    .ok (store.filter (fun r => !(r.id == rid)))
  else .error .notFound

/-- The states of the serialized blob under the local-storage key:
no item stored, a well-formed serialization of a note list, or a
corrupt string that `JSON.parse` cannot parse. -/
inductive LocalBlob
  | absent
  | wellFormed (notes : List Note)
  | malformed
deriving DecidableEq

/-- A blob the backing medium cannot read as a note list. -/
def LocalBlob.isUnreadable : LocalBlob → Bool
  | .malformed => true
  | _ => false

/-- The exception `JSON.parse` throws on malformed input. -/
inductive JsError
  | syntaxError
deriving DecidableEq

/-- Function `loadNotes` in `script.js`:
`notesJSON ? JSON.parse(notesJSON) : []`. There is no `try`/`catch`, so
on a malformed blob the `SyntaxError` of `JSON.parse` propagates to the
caller; only a missing item yields `[]`. -/
def loadNotes : LocalBlob → Except JsError (List Note)
  | .absent => .ok []
  | .wellFormed notes => .ok notes
  | .malformed => .error .syntaxError

/-- The ways the `fetch` in `fetchNotes` can turn out: a good JSON
body, a non-2xx status (`response.ok` false), a rejected fetch, or an
unparsable body (`response.json()` rejects). -/
inductive FetchOutcome
  | success (notes : List Note)
  | httpError
  | networkFailure
  | malformedBody
deriving DecidableEq

/-- Outcomes on which the backing API could not be read. -/
def FetchOutcome.isFailure : FetchOutcome → Bool
  | .success _ => false
  | _ => true

/-- Function `fetchNotes` in `public/script.js`: the whole call is wrapped in
`try`/`catch`; the `catch` logs the error and returns `[]`, and a bad
status is thrown into that same `catch`. -/
def fetchNotes : FetchOutcome → List Note
  | .success notes => notes
  | _ => []

/-- The values `JSON.parse` can produce (numbers restricted to the
integers, which covers every id and field the application produces).
Parsed objects carry their key/value pairs with distinct keys. -/
inductive Json where
  | null
  | bool (b : Bool)
  | num (n : Int)
  | str (s : String)
  | arr (elems : List Json)
  | obj (fields : List (String × Json))

/-- The per-element validation of the import handler:
`typeof note === 'object' && note !== null && 'id' in note && 'text' in note`.
Only a parsed object can own an `id` and a `text` property (a parsed
array is `typeof 'object'` but never has those keys; `null` is ruled
out explicitly; primitives are not objects). -/
def isValidElem : Json → Bool
  | .obj fields => fields.any (fun f => f.1 == "id") && fields.any (fun f => f.1 == "text")
  | _ => false

/-- Property access `note.id` on a parsed value: the value stored under
the key `id` for an object (or `undefined`, modelled as `none`, when
the key is missing or the value is not an object). -/
def getId : Json → Option Json
  | .obj fields => (fields.find? (fun f => f.1 == "id")).map (fun f => f.2)
  | _ => none

/-- SameValueZero on parsed JSON values, the equality `Set.prototype.has`
uses. Arrays and objects compare by reference, and two values produced
by `JSON.parse` are never the same reference, so they compare unequal. -/
def sameValueZero : Json → Json → Bool
  | .null, .null => true
  | .bool a, .bool b => a == b
  | .num a, .num b => a == b
  | .str a, .str b => a == b
  | _, _ => false

/-- SameValueZero lifted to possibly-`undefined` id values
(`undefined` equals only `undefined`). -/
def svzOpt : Option Json → Option Json → Bool
  | none, none => true
  | some a, some b => sameValueZero a b
  | _, _ => false

/-- Membership in `existingNoteIds = new Set(currentNotes.map(n => n.id))`:
`existingNoteIds.has(i)`. -/
def idMem (ids : List (Option Json)) (i : Option Json) : Bool :=
  ids.any (fun j => svzOpt j i)

/-- The merge branch of the import handler (identical in both
variants): keep `currentNotes` and append the imported notes whose id
is not in the `Set` of existing ids. -/
def mergeNotes (currentNotes importedNotes : List Json) : List Json :=
  let existingNoteIds := currentNotes.map getId
  currentNotes ++ importedNotes.filter (fun n => !(idMem existingNoteIds (getId n)))

/-- The alert text of the import handler's validation failure. -/
def invalidMsg : String :=
  "Invalid JSON file format. Please select a valid ProNotes export file."

/-- The import `change` handler after `JSON.parse` succeeded (identical
logic in both variants): validate the payload shape; on failure alert
and return without touching storage; otherwise merge or replace and
save. The result is the stored list after the handler together with
the error alert, if any. -/
def importApply (payload : Json) (mergeOpt : Bool) (currentNotes : List Json) :
    List Json × Option String :=
  match payload with
  | .arr importedNotes =>
    if importedNotes.all isValidElem then
      if mergeOpt then (mergeNotes currentNotes importedNotes, none)
      else (importedNotes, none)
    else (currentNotes, some invalidMsg)
  | _ => (currentNotes, some invalidMsg)

/-- The specification's reading of a well-formed snapshot: a sequence
of objects each carrying at least an `id` and a `text` field. -/
def ValidSnapshot (j : Json) : Prop :=
  ∃ elems, j = Json.arr elems ∧
    ∀ e ∈ elems, ∃ fields, e = Json.obj fields ∧
      (∃ f ∈ fields, f.1 = "id") ∧ (∃ f ∈ fields, f.1 = "text")

/-- Function `getNoteColorClass(dueDateString, reminderTime)` in
`public/script.js`. `nowDay` is the day key of today's local midnight
(`today.setHours(0,0,0,0)`), `nowMs` the milliseconds elapsed since
that midnight; a due date is its local-midnight day key and a reminder
is its `HH:MM` pair, placed on today's date by the source. -/
def getNoteColorClass (dueDate : Option Int) (reminderTime : Option (Nat × Nat))
    (nowDay : Int) (nowMs : Nat) : String :=
  match dueDate with
  | none => "color-default"
  | some due =>
    let today := nowDay
    let tomorrow := today + 1
    let isToday := due == today
    let isOverdue := decide (due < today)
    let isDueTodayButLate :=
      match reminderTime with
      | some (h, m) => isToday && decide ((h * 60 + m) * 60000 < nowMs)
      | none => false
    if isOverdue || isDueTodayButLate then "color-overdue"
    else if isToday then "color-due-today"
    else if due == tomorrow then "color-due-tomorrow"
    else "color-default"

/-- Modelled from the claim's wording: overdue when the due date is
before today, or is today with a reminder for today already past;
due-today when due today and not overdue; due-tomorrow when due
exactly tomorrow; default in every other case, including no due date. -/
def specNoteState (dueDate : Option Int) (reminderTime : Option (Nat × Nat))
    (nowDay : Int) (nowMs : Nat) : String :=
  match dueDate with
  | none => "color-default"
  | some due =>
    if due < nowDay ∨ (due = nowDay ∧
        (∃ hm, reminderTime = some hm ∧ (hm.1 * 60 + hm.2) * 60000 < nowMs)) then
      "color-overdue"
    else if due = nowDay then "color-due-today"
    else if due = nowDay + 1 then "color-due-tomorrow"
    else "color-default"

/-- Function `isDateOverdue` of the local-storage variant: a present due
date strictly before today's midnight. -/
def isDateOverdue (dueDate : Option Int) (nowDay : Int) : Bool :=
  match dueDate with
  | none => false
  | some d => decide (d < nowDay)

section SortLemmas

variable {α : Type} (cmp : α → α → Int)

lemma insertSorted_perm (x : α) (l : List α) :
    List.Perm (insertSorted cmp x l) (x :: l) := by
  induction l with
  | nil => simp [insertSorted]
  | cons y ys ih =>
    by_cases h : cmp x y ≤ 0
    · simp [insertSorted, h]
    · simp only [insertSorted, if_neg h]
      exact (ih.cons y).trans (List.Perm.swap x y ys)

lemma stableSort_perm (l : List α) : List.Perm (stableSort cmp l) l := by
  induction l with
  | nil => simp [stableSort]
  | cons x xs ih =>
    exact (insertSorted_perm cmp x (stableSort cmp xs)).trans (ih.cons x)

lemma mem_stableSort {a : α} {l : List α} : a ∈ stableSort cmp l ↔ a ∈ l :=
  (stableSort_perm cmp l).mem_iff

lemma insertSorted_pairwise
    (htot : ∀ a b, ¬ cmp a b ≤ 0 → cmp b a ≤ 0)
    (htr : ∀ a b c, cmp a b ≤ 0 → cmp b c ≤ 0 → cmp a c ≤ 0)
    (x : α) (l : List α) (hl : l.Pairwise (fun a b => cmp a b ≤ 0)) :
    (insertSorted cmp x l).Pairwise (fun a b => cmp a b ≤ 0) := by
  induction l with
  | nil => simp [insertSorted]
  | cons y ys ih =>
    rw [List.pairwise_cons] at hl
    obtain ⟨hy, hys⟩ := hl
    by_cases h : cmp x y ≤ 0
    · rw [insertSorted, if_pos h, List.pairwise_cons, List.pairwise_cons]
      refine ⟨?_, hy, hys⟩
      intro z hz
      rcases List.mem_cons.mp hz with rfl | hz'
      · exact h
      · exact htr x y z h (hy z hz')
    · rw [insertSorted, if_neg h, List.pairwise_cons]
      refine ⟨?_, ih hys⟩
      intro z hz
      rw [(insertSorted_perm cmp x ys).mem_iff] at hz
      rcases List.mem_cons.mp hz with rfl | hz'
      · exact htot _ _ h
      · exact hy z hz'

lemma stableSort_pairwise
    (htot : ∀ a b, ¬ cmp a b ≤ 0 → cmp b a ≤ 0)
    (htr : ∀ a b c, cmp a b ≤ 0 → cmp b c ≤ 0 → cmp a c ≤ 0)
    (l : List α) :
    (stableSort cmp l).Pairwise (fun a b => cmp a b ≤ 0) := by
  induction l with
  | nil => simp [stableSort]
  | cons x xs ih => exact insertSorted_pairwise cmp htot htr x _ ih

/-- Any relation that holds whenever the left element satisfies `P`
holds pairwise on a list whose elements all satisfy `P`. -/
lemma pairwise_of_left {P : α → Prop} {R : α → α → Prop} {l : List α}
    (hl : ∀ a ∈ l, P a) (hR : ∀ a b, P a → R a b) : l.Pairwise R := by
  induction l with
  | nil => exact List.Pairwise.nil
  | cons x xs ih =>
    rw [List.pairwise_cons]
    exact ⟨fun b _ => hR x b (hl x (by simp)),
      ih fun a ha => hl a (by simp [ha])⟩

end SortLemmas

section NoteCmpFacts

lemma noteCmp_total (a b : Note) : ¬ noteCmp a b ≤ 0 → noteCmp b a ≤ 0 := by
  cases ha : a.pinned <;> cases hb : b.pinned <;>
    simp only [noteCmp, dueCmp, ha, hb, bne_self_eq_false, Bool.bne_false,
      Bool.false_bne, Bool.true_bne, Bool.bne_true, if_true, if_false,
      Bool.not_true, Bool.not_false, ite_true, ite_false, Bool.false_eq_true] <;>
    rcases a.dueDate with _ | da <;> rcases b.dueDate with _ | db <;>
    simp <;> omega

lemma noteCmp_trans (a b c : Note) :
    noteCmp a b ≤ 0 → noteCmp b c ≤ 0 → noteCmp a c ≤ 0 := by
  cases ha : a.pinned <;> cases hb : b.pinned <;> cases hc : c.pinned <;>
    simp only [noteCmp, dueCmp, ha, hb, hc, bne_self_eq_false, Bool.bne_false,
      Bool.false_bne, Bool.true_bne, Bool.bne_true, if_true, if_false,
      Bool.not_true, Bool.not_false, ite_true, ite_false, Bool.false_eq_true] <;>
    rcases a.dueDate with _ | da <;> rcases b.dueDate with _ | db <;>
    rcases c.dueDate with _ | dc <;>
    simp <;> omega

lemma createdCmp_total (a b : Note) : ¬ createdCmp a b ≤ 0 → createdCmp b a ≤ 0 := by
  simp only [createdCmp]; omega

lemma createdCmp_trans (a b c : Note) :
    createdCmp a b ≤ 0 → createdCmp b c ≤ 0 → createdCmp a c ≤ 0 := by
  simp only [createdCmp]; omega

lemma project_pairwise (notes : List Note) (term : List Char) :
    (project notes term).Pairwise (fun a b => noteCmp a b ≤ 0) :=
  stableSort_pairwise noteCmp noteCmp_total noteCmp_trans _

end NoteCmpFacts

section StringFacts

lemma isPrefixOf_iff_append (needle hay : List Char) :
    needle.isPrefixOf hay = true ↔ ∃ t, hay = needle ++ t := by
  induction needle generalizing hay with
  | nil => simp [List.isPrefixOf]
  | cons c cs ih =>
    cases hay with
    | nil => simp [List.isPrefixOf]
    | cons d ds =>
      simp only [List.isPrefixOf, Bool.and_eq_true, beq_iff_eq, ih,
        List.cons_append, List.cons.injEq]
      constructor
      · rintro ⟨rfl, t, rfl⟩; exact ⟨t, rfl, rfl⟩
      · rintro ⟨t, rfl, rfl⟩; exact ⟨rfl, t, rfl⟩

lemma jsIncludes_iff (needle hay : List Char) :
    jsIncludes needle hay = true ↔ ∃ l r, hay = l ++ needle ++ r := by
  induction hay with
  | nil =>
    simp only [jsIncludes, List.isEmpty_iff]
    constructor
    · rintro rfl; exact ⟨[], [], rfl⟩
    · rintro ⟨l, r, h⟩
      rcases List.append_eq_nil.mp h.symm with ⟨h1, h2⟩
      exact (List.append_eq_nil.mp h1).2
  | cons c cs ih =>
    simp only [jsIncludes, Bool.or_eq_true, isPrefixOf_iff_append, ih]
    constructor
    · rintro (⟨t, ht⟩ | ⟨l, r, hr⟩)
      · exact ⟨[], t, by simp [ht]⟩
      · exact ⟨c :: l, r, by simp [hr]⟩
    · rintro ⟨l, r, hr⟩
      cases l with
      | nil => exact Or.inl ⟨r, by simpa using hr⟩
      | cons d ds =>
        right
        refine ⟨ds, r, ?_⟩
        have h2 : cs = ds ++ needle ++ r := by
          have := hr
          simp only [List.cons_append, List.cons.injEq] at this
          exact this.2
        exact h2

lemma jsIncludes_nil (hay : List Char) : jsIncludes [] hay = true := by
  induction hay with
  | nil => simp [jsIncludes]
  | cons c cs ih => simp [jsIncludes, List.isPrefixOf, ih]

end StringFacts

section PairwiseHelpers

/-- A relation that holds whenever the right element satisfies `P`
holds pairwise on a list whose elements all satisfy `P`. -/
lemma pairwise_of_right {α : Type} {P : α → Prop} {R : α → α → Prop} {l : List α}
    (hl : ∀ a ∈ l, P a) (hR : ∀ a b, P b → R a b) : l.Pairwise R := by
  induction l with
  | nil => exact List.Pairwise.nil
  | cons x xs ih =>
    rw [List.pairwise_cons]
    exact ⟨fun b hb => hR x b (hl b (by simp [hb])),
      ih fun a ha => hl a (by simp [ha])⟩

lemma noteCmp_le_pinned {a b : Note} (h : noteCmp a b ≤ 0)
    (hb : b.pinned = true) : a.pinned = true := by
  cases hap : a.pinned
  · rw [noteCmp, hap, hb] at h
    simp at h
  · rfl

end PairwiseHelpers

/-- The ordering the claim asserts between two notes placed in this
order inside the same pinned partition: dated before undated, earlier
due date first, and `createdAt` descending both among undated notes and
as tiebreak between equal due dates. -/
def dueOrderRel (a b : Note) : Prop :=
  a.pinned = b.pinned →
    match a.dueDate, b.dueDate with
    | none, none => createdKey b ≤ createdKey a
    | none, some _ => False
    | some _, none => True
    | some da, some db => da < db ∨ (da = db ∧ createdKey b ≤ createdKey a)

/-- The claimed ordering, required of every pair of a list in order. -/
def dueOrderOK (l : List Note) : Prop := l.Pairwise dueOrderRel

/-- The ordering the sort actually guarantees inside a pinned
partition: dated before undated, due dates ascending (equal due dates
unconstrained), `createdAt` descending among undated notes. -/
def dueOrderAmendedRel (a b : Note) : Prop :=
  a.pinned = b.pinned →
    match a.dueDate, b.dueDate with
    | none, none => createdKey b ≤ createdKey a
    | none, some _ => False
    | some _, none => True
    | some da, some db => da ≤ db

/-- Unpinned note with a due date and the earlier creation date. -/
def noteA : Note := ⟨"1", ['a'], false, some 1, some 100, none⟩

/-- Unpinned note with the same due date and a later creation date. -/
def noteB : Note := ⟨"2", ['a'], false, some 2, some 100, none⟩

/-- Unpinned dated note with the earlier creation date. -/
def noteC : Note := ⟨"3", ['a'], false, some 1, some 100, none⟩

/-- Unpinned undated note with the later creation date. -/
def noteD : Note := ⟨"4", ['a'], false, some 2, none, none⟩

/-- C1, counterexample. The claim fails on both variants: the
server-backed comparator returns 0 on equal due dates, so the stable
sort keeps `noteA` (earlier `createdAt`) ahead of `noteB` instead of
applying the claimed `createdAt` tiebreak; the local-storage variant
sorts partitions by `createdAt` only, so the undated `noteD` precedes
the dated `noteC`. -/
theorem c1_counterexample :
    (¬ ∀ (notes : List Note) (term : List Char), dueOrderOK (project notes term)) ∧
    (¬ ∀ (notes : List Note) (term : List Char), dueOrderOK (localProject notes term)) := by
  constructor
  · intro h
    have h2 := h [noteA, noteB] []
    rw [show project [noteA, noteB] [] = [noteA, noteB] by decide] at h2
    rw [dueOrderOK, List.pairwise_cons] at h2
    have h3 := h2.1 noteB (by simp)
    have h4 := h3 rfl
    simp [noteA, noteB, createdKey] at h4
  · intro h
    have h2 := h [noteC, noteD] []
    rw [show localProject [noteC, noteD] [] = [noteD, noteC] by decide] at h2
    rw [dueOrderOK, List.pairwise_cons] at h2
    have h3 := h2.1 noteC (by simp)
    have h4 := h3 rfl
    simp [noteD, noteC, createdKey] at h4

/-- C1, amended: in the server-backed View Projector's output, within
each pinned partition every dated note precedes every undated one, a
strictly earlier due date precedes a later one, and among undated notes
a later `createdAt` precedes an earlier one; equal due dates impose no
`createdAt` constraint (the sort leaves such pairs in their incoming
relative order). -/
theorem c1_amended_ordering (notes : List Note) (term : List Char) :
    (project notes term).Pairwise dueOrderAmendedRel := by
  refine (project_pairwise notes term).imp ?_
  intro a b h
  have hpq : a.pinned = b.pinned → dueCmp a b ≤ 0 := by
    intro hpin
    simpa [noteCmp, hpin] using h
  rcases hda : a.dueDate with _ | da <;> rcases hdb : b.dueDate with _ | db <;>
    simp only [dueOrderAmendedRel, hda, hdb] <;>
    intro hpin <;>
    have hd := hpq hpin <;>
    simp only [dueCmp, hda, hdb] at hd <;>
    first
    | trivial
    | omega

/-- C8: in both variants' projections, for any note list and search
term, every pinned note precedes every unpinned note. -/
theorem c8_pinned_first (notes : List Note) (term : List Char) :
    (project notes term).Pairwise (fun a b => b.pinned = true → a.pinned = true) ∧
    (localProject notes term).Pairwise (fun a b => b.pinned = true → a.pinned = true) := by
  constructor
  · exact (project_pairwise notes term).imp fun h hb => noteCmp_le_pinned h hb
  · rw [localProject]
    rw [List.pairwise_append]
    refine ⟨?_, ?_, ?_⟩
    · refine pairwise_of_left (P := fun n : Note => n.pinned = true) ?_ ?_
      · intro a ha
        rw [mem_stableSort] at ha
        exact (List.mem_filter.mp ha).2
      · exact fun a b pa _ => pa
    · refine pairwise_of_right (P := fun n : Note => n.pinned = false) ?_ ?_
      · intro a ha
        rw [mem_stableSort] at ha
        have := (List.mem_filter.mp ha).2
        simpa using this
      · intro a b pb hb
        rw [pb] at hb
        cases hb
    · intro a ha b hb
      rw [mem_stableSort] at hb
      have := (List.mem_filter.mp hb).2
      intro hbp
      rw [hbp] at this
      cases this

/-- C9: in both variants, the projection contains exactly the notes of
the input whose lowercased text contains the lowercased search term as
a contiguous substring, and the empty search term keeps every note. -/
theorem c9_filter_exact (notes : List Note) (term : List Char) (n : Note) :
    (n ∈ project notes term ↔
      n ∈ notes ∧ ∃ l r, lowerChars n.text = l ++ lowerChars term ++ r) ∧
    (n ∈ localProject notes term ↔
      n ∈ notes ∧ ∃ l r, lowerChars n.text = l ++ lowerChars term ++ r) ∧
    (n ∈ project notes [] ↔ n ∈ notes) ∧
    (n ∈ localProject notes [] ↔ n ∈ notes) := by
  have hfil : ∀ t, n ∈ notes.filter (matchesSearch t) ↔
      n ∈ notes ∧ ∃ l r, lowerChars n.text = l ++ lowerChars t ++ r := by
    intro t
    rw [List.mem_filter, matchesSearch, jsIncludes_iff]
  have hloc : ∀ t, n ∈ localProject notes t ↔ n ∈ notes.filter (matchesSearch t) := by
    intro t
    rw [localProject]
    rw [List.mem_append, mem_stableSort, mem_stableSort,
      List.mem_filter, List.mem_filter]
    cases hnp : n.pinned <;> simp [hnp]
  have hproj : ∀ t, n ∈ project notes t ↔ n ∈ notes.filter (matchesSearch t) := by
    intro t
    rw [project, mem_stableSort]
  have hempty : n ∈ notes.filter (matchesSearch []) ↔ n ∈ notes := by
    rw [List.mem_filter]
    simp [matchesSearch, lowerChars, jsIncludes_nil]
  refine ⟨?_, ?_, ?_, ?_⟩
  · rw [hproj, hfil]
  · rw [hloc, hfil]
  · rw [hproj, hempty]
  · rw [hloc, hempty]

/-- A stored row with text and a pinned flag set. -/
def rowEx : Row := ⟨1, some "old", some true, 0, none, none⟩

/-- A stored note of the local-storage variant. -/
def noteEx : Note := ⟨"1", ['o'], true, some 0, none, none⟩

/-- C2: the PUT route does not merge partial bodies. Updating only the
text of the stored row wipes its pinned flag to SQL `NULL`, and a body
that carries only `pinned` trips the `NOT NULL` constraint on `text`;
the local-storage `updateNoteContent`, by contrast, does retain the
fields the update leaves out. -/
theorem c2_put_overwrites :
    serverUpdate [rowEx] 1 (some "x") none =
      .ok [{ rowEx with text := some "x", pinned := none }] ∧
    serverUpdate [rowEx] 1 none (some false) = .error .notNullViolation ∧
    updateNoteContent [noteEx] "1" { text := some ['x'], pinned := none } =
      [{ noteEx with text := ['x'] }] := by
  refine ⟨?_, ?_, ?_⟩ <;> rfl

lemma any_beq_eq_false_of_all_bne (store : List Row) (rid : Nat)
    (h : store.all (fun r => r.id != rid) = true) :
    store.any (fun r => r.id == rid) = false := by
  rw [List.all_eq_true] at h
  rw [List.any_eq_false]
  intro r hr
  have := h r hr
  simpa using this

/-- C4, counterexample: the local-storage `deleteNote` never signals a
missing id - deleting an id that is not in the store still runs the
success path (`saveNotes`, indicator text Saved!), refuting the claim
that deletion of an unknown id signals NotFound rather than success. -/
theorem c4_counterexample :
    ¬ ((∀ (store : List Row) (rid : Nat),
          store.all (fun r => r.id != rid) = true →
          serverDelete store rid = .error .notFound) ∧
       (∀ (notes : List Note) (nid : String),
          notes.all (fun n => n.id != nid) = true →
          (localDeleteNote notes nid).indicator ≠ "Saved!")) := by
  rintro ⟨-, h⟩
  exact h [noteEx] "2" (by decide) rfl

/-- C4, amended: the server API signals NotFound - update and delete of
an id matching no row answer 404, a successful delete removes the id
and a repeated delete answers 404; the local-storage variant's delete,
however, never signals NotFound and reports success (indicator text
Saved!) whether or not the id existed. -/
theorem c4_amended_notfound (store : List Row) (rid : Nat) :
    (store.all (fun r => r.id != rid) = true →
      serverDelete store rid = .error .notFound ∧
      ∀ t p, serverUpdate store rid t p = .error .notFound) ∧
    (store.any (fun r => r.id == rid) = true →
      ∃ store2, serverDelete store rid = .ok store2 ∧
        store2.all (fun r => r.id != rid) = true ∧
        serverDelete store2 rid = .error .notFound) ∧
    (∀ (notes : List Note) (nid : String),
      (localDeleteNote notes nid).indicator = "Saved!") := by
  refine ⟨?_, ?_, fun notes nid => rfl⟩
  · intro hall
    have hany := any_beq_eq_false_of_all_bne store rid hall
    constructor
    · rw [serverDelete, hany]
      simp
    · intro t p
      rw [serverUpdate, hany]
      simp
  · intro hany
    refine ⟨store.filter (fun r => !(r.id == rid)), ?_, ?_, ?_⟩
    · rw [serverDelete, hany]
      simp
    · rw [List.all_eq_true]
      intro r hr
      have := (List.mem_filter.mp hr).2
      simpa using this
    · have h2 : (store.filter (fun r => !(r.id == rid))).all
          (fun r => r.id != rid) = true := by
        rw [List.all_eq_true]
        intro r hr
        have := (List.mem_filter.mp hr).2
        simpa using this
      rw [serverDelete, any_beq_eq_false_of_all_bne _ _ h2]
      simp

/-- C4, witness for the amended claim at a one-row store: id 2 is
absent (delete and update answer 404) and id 1 is present (delete
succeeds, removes it, and a second delete answers 404). -/
theorem c4_witness :
    (serverDelete [rowEx] 2 = .error .notFound ∧
      ∀ t p, serverUpdate [rowEx] 2 t p = .error .notFound) ∧
    (∃ store2, serverDelete [rowEx] 1 = .ok store2 ∧
      store2.all (fun r => r.id != 1) = true ∧
      serverDelete store2 1 = .error .notFound) :=
  ⟨(c4_amended_notfound [rowEx] 2).1 (by decide),
   (c4_amended_notfound [rowEx] 1).2.1 (by decide)⟩

/-- C5, counterexample: the local-storage `loadNotes` calls
`JSON.parse` with no `try`/`catch`, so a corrupt stored blob makes
`list()` throw instead of returning an empty collection. -/
theorem c5_counterexample :
    ¬ ((∀ b : LocalBlob, b.isUnreadable = true → loadNotes b = .ok []) ∧
       (∀ o : FetchOutcome, o.isFailure = true → fetchNotes o = [])) := by
  rintro ⟨h, -⟩
  have h2 := h .malformed rfl
  exact absurd h2 (by simp [loadNotes])

/-- C5, amended: the server-backed `fetchNotes` returns the empty
collection on every read failure without throwing; the local-storage
`loadNotes` returns the empty collection only when no blob is stored,
and propagates the `JSON.parse` SyntaxError on a corrupt blob. -/
theorem c5_amended_read_failures (o : FetchOutcome) (h : o.isFailure = true) :
    fetchNotes o = [] ∧ loadNotes .absent = .ok [] ∧
      loadNotes .malformed = .error .syntaxError := by
  refine ⟨?_, rfl, rfl⟩
  cases o
  case success notes => exact absurd h (by simp [FetchOutcome.isFailure])
  all_goals rfl

/-- C5, witness: a rejected fetch is a read failure and yields `[]`. -/
theorem c5_witness :
    fetchNotes .networkFailure = [] ∧ loadNotes .absent = .ok [] ∧
      loadNotes .malformed = .error .syntaxError :=
  c5_amended_read_failures .networkFailure rfl

section ImportFacts

lemma isValidElem_iff (e : Json) :
    isValidElem e = true ↔ ∃ fields, e = Json.obj fields ∧
      (∃ f ∈ fields, f.1 = "id") ∧ (∃ f ∈ fields, f.1 = "text") := by
  cases e <;> simp [isValidElem]

lemma validSnapshot_iff (elems : List Json) :
    ValidSnapshot (Json.arr elems) ↔ elems.all isValidElem = true := by
  rw [ValidSnapshot]
  constructor
  · rintro ⟨elems2, heq, hall⟩
    cases heq
    rw [List.all_eq_true]
    intro e he
    exact (isValidElem_iff e).mpr (hall e he)
  · intro hall
    refine ⟨elems, rfl, ?_⟩
    rw [List.all_eq_true] at hall
    exact fun e he => (isValidElem_iff e).mp (hall e he)

lemma idMem_map_eq_false_iff (currentNotes : List Json) (i : Option Json) :
    idMem (currentNotes.map getId) i = false ↔
      ∀ c ∈ currentNotes, svzOpt (getId c) i = false := by
  rw [idMem, List.any_eq_false]
  constructor
  · intro h c hc
    exact Bool.eq_false_iff.mpr (h (getId c) (List.mem_map_of_mem getId hc))
  · intro h j hj
    obtain ⟨c, hc, rfl⟩ := List.mem_map.mp hj
    exact Bool.eq_false_iff.mp (h c hc)

end ImportFacts

/-- C6: any import payload that is not an array of objects each
carrying an `id` and a `text` field is rejected with the user-visible
format alert, and the stored collection is exactly what it was - no
mutation happens before validation passes. -/
theorem c6_invalid_import_rejected (payload : Json) (mergeOpt : Bool)
    (currentNotes : List Json) (h : ¬ ValidSnapshot payload) :
    importApply payload mergeOpt currentNotes = (currentNotes, some invalidMsg) := by
  cases payload
  case arr elems =>
    rw [importApply]
    have hv : ¬ elems.all isValidElem = true :=
      fun hc => h ((validSnapshot_iff elems).mpr hc)
    rw [if_neg hv]
  all_goals rfl

/-- C6, witness: a plain string payload (not an array) is rejected and
leaves an empty store empty. -/
theorem c6_witness :
    ¬ ValidSnapshot (Json.str "nope") ∧
      importApply (Json.str "nope") true [] = ([], some invalidMsg) := by
  have hns : ¬ ValidSnapshot (Json.str "nope") := by
    rintro ⟨elems, heq, -⟩
    exact Json.noConfusion heq
  exact ⟨hns, c6_invalid_import_rejected _ _ _ hns⟩

/-- C3: merge-mode import of a valid snapshot keeps every current note
in the store, adds every snapshot note whose id (compared with the
SameValueZero equality of `Set`) matches no current note's id, and adds
nothing else - in particular a snapshot note whose id already exists
never replaces the existing note. -/
theorem c3_merge_import (currentNotes importedNotes result : List Json)
    (hv : ValidSnapshot (Json.arr importedNotes))
    (hr : result = (importApply (Json.arr importedNotes) true currentNotes).1) :
    (∀ c ∈ currentNotes, c ∈ result) ∧
    (∀ n ∈ importedNotes,
      (∀ c ∈ currentNotes, svzOpt (getId c) (getId n) = false) → n ∈ result) ∧
    (∀ x ∈ result, x ∈ currentNotes ∨
      (x ∈ importedNotes ∧ ∀ c ∈ currentNotes, svzOpt (getId c) (getId x) = false)) := by
  subst hr
  rw [importApply, if_pos ((validSnapshot_iff _).mp hv)]
  simp only [if_pos, mergeNotes]
  refine ⟨?_, ?_, ?_⟩
  · intro c hc
    exact List.mem_append_left _ hc
  · intro n hn hids
    refine List.mem_append_right _ (List.mem_filter.mpr ⟨hn, ?_⟩)
    rw [Bool.not_eq_true']
    exact (idMem_map_eq_false_iff currentNotes (getId n)).mpr hids
  · intro x hx
    rcases List.mem_append.mp hx with hx | hx
    · exact Or.inl hx
    · obtain ⟨hmem, hpred⟩ := List.mem_filter.mp hx
      rw [Bool.not_eq_true'] at hpred
      exact Or.inr ⟨hmem, (idMem_map_eq_false_iff currentNotes (getId x)).mp hpred⟩

/-- Current store holding one note with id 5. -/
def curEx : List Json := [Json.obj [("id", Json.num 5), ("text", Json.str "old")]]

/-- Imported snapshot: one conflicting id 5 with different text, one
fresh id 6. -/
def impEx : List Json :=
  [Json.obj [("id", Json.num 5), ("text", Json.str "hi")],
   Json.obj [("id", Json.num 6), ("text", Json.str "new")]]

/-- The store after merge-importing `impEx` onto `curEx`. -/
def resEx : List Json := (importApply (Json.arr impEx) true curEx).1

/-- C3, witness: the merge of the snapshot with a conflicting id 5 and
a fresh id 6 onto the one-note store. -/
theorem c3_witness :
    (∀ c ∈ curEx, c ∈ resEx) ∧
    (∀ n ∈ impEx,
      (∀ c ∈ curEx, svzOpt (getId c) (getId n) = false) → n ∈ resEx) ∧
    (∀ x ∈ resEx, x ∈ curEx ∨
      (x ∈ impEx ∧ ∀ c ∈ curEx, svzOpt (getId c) (getId x) = false)) :=
  c3_merge_import curEx impEx resEx ((validSnapshot_iff impEx).mpr rfl) rfl

/-- C10: merge-mode import of a valid snapshot produces exactly the
current list in its original order followed by the snapshot notes whose
id matches no current note's id, in snapshot order. -/
theorem c10_merge_append (currentNotes importedNotes : List Json)
    (hv : ValidSnapshot (Json.arr importedNotes)) :
    (importApply (Json.arr importedNotes) true currentNotes).1 =
      currentNotes ++ importedNotes.filter
        (fun n => decide (∀ c ∈ currentNotes, svzOpt (getId c) (getId n) = false)) := by
  have hall := (validSnapshot_iff _).mp hv
  rw [importApply, if_pos hall, if_pos rfl]
  simp only [mergeNotes]
  congr 1
  apply List.filter_congr
  intro n _
  cases hb : idMem (currentNotes.map getId) (getId n)
  · simp [decide_eq_true ((idMem_map_eq_false_iff currentNotes (getId n)).mp hb)]
  · have : ¬ ∀ c ∈ currentNotes, svzOpt (getId c) (getId n) = false := by
      intro hall
      rw [(idMem_map_eq_false_iff currentNotes (getId n)).mpr hall] at hb
      cases hb
    simp [decide_eq_false this]

/-- C10, witness: the same concrete merge; only the note with fresh
id 6 is appended, after the untouched current list. -/
theorem c10_witness :
    (importApply (Json.arr impEx) true curEx).1 =
      curEx ++ impEx.filter
        (fun n => decide (∀ c ∈ curEx, svzOpt (getId c) (getId n) = false)) :=
  c10_merge_append curEx impEx ((validSnapshot_iff impEx).mpr rfl)

/-- C7: the display-state classification of the server-backed variant
agrees, for every due date, reminder time and clock position, with the
claimed case analysis (overdue strictly past today or due today with a
passed reminder; due-today; due-tomorrow; default otherwise, in
particular with no due date), and the local variant's `isDateOverdue`
is exactly "has a due date strictly before today". The embedded
classification is a pure function of its inputs: it cannot mutate the
note. -/
theorem c7_color_class (dueDate : Option Int) (reminderTime : Option (Nat × Nat))
    (nowDay : Int) (nowMs : Nat) :
    getNoteColorClass dueDate reminderTime nowDay nowMs =
      specNoteState dueDate reminderTime nowDay nowMs ∧
    (isDateOverdue dueDate nowDay = true ↔ ∃ d, dueDate = some d ∧ d < nowDay) := by
  constructor
  · rcases dueDate with _ | due
    · rfl
    · rcases reminderTime with _ | ⟨hh, mm⟩
      · simp only [getNoteColorClass, specNoteState, reduceCtorEq, false_and,
          and_false, exists_false, or_false, Bool.or_false, decide_eq_true_eq,
          beq_iff_eq]
      · simp only [getNoteColorClass, specNoteState, Option.some.injEq,
          exists_eq_left', Bool.or_eq_true, Bool.and_eq_true,
          decide_eq_true_eq, beq_iff_eq]
  · rcases dueDate with _ | d <;> simp [isDateOverdue]

end StickyNotes
